import Mathlib

/-!
Verification of the streaming core of `streamui`
(`packages/streamui/src/spec-stream.ts` and
`packages/streamui/src/transport.ts`).

Strings are modelled as `List Char` (`JStr`).  JavaScript's `JSON.parse`
is a platform builtin, so it is modelled here by an executable JSON parser
following the JSON grammar; everything else is translated directly from
the TypeScript source.  The patch engine `applySpecStreamPatch` comes from
the external `@json-render/core` package whose source is not part of this
repository; it is modelled from the spec (§4.3 PatchEngine).
-/

/-- Strings as character lists, for easy structural recursion. -/
abbrev JStr := List Char

/-- Coerce a Lean string literal to the `JStr` representation. -/
def s2l (s : String) : JStr := s.data

/-- Whitespace as recognised by JavaScript `String.prototype.trim` and by
the JSON grammar (we use the ASCII subset plus NBSP; the source streams are
ASCII/UTF-8 text where only these occur). -/
def jsIsWs (c : Char) : Bool :=
  c = ' ' || c = '\t' || c = '\n' || c = '\r' || c = '\x0b' || c = '\x0c' || c = ' '

/-- JavaScript `line.trim()`: strip leading and trailing whitespace. -/
def jsTrim (s : JStr) : JStr :=
  ((s.dropWhile jsIsWs).reverse.dropWhile jsIsWs).reverse

/-- Split a text on `'\n'`, returning the complete (terminated) lines and
the unterminated tail.  This models `buffer.split("\n")` followed by
`buffer = lines.pop() || ""` in `SpecStreamBuffer.processChunk`
(spec-stream.ts lines 47-48). -/
def splitLines : JStr → List JStr × JStr
  | [] => ([], [])
  | c :: rest =>
    let p := splitLines rest
    if c = '\n' then ([] :: p.1, p.2)
    else
      match p.1 with
      | [] => ([], c :: p.2)
      | l :: ls => ((c :: l) :: ls, p.2)

/-- Reattach terminators: each complete line followed by `'\n'`. -/
def joinLines (ls : List JStr) : JStr :=
  ls.foldr (fun l acc => l ++ '\n' :: acc) []

/-! ## JSON values and a model of `JSON.parse` -/
/-- JSON values.  Numbers keep their grammar components (sign, integer
digits, fraction digits, exponent), which is enough to decide JavaScript
truthiness without committing to floating-point semantics. -/
inductive JsonVal where
  | null
  | bool (b : Bool)
  | num (neg : Bool) (ip fp : JStr) (ex : Int)
  | str (s : JStr)
  | arr (elems : List JsonVal)
  | obj (fields : List (JStr × JsonVal))

/-- Whitespace accepted by the JSON grammar between tokens. -/
def jsonWs (c : Char) : Bool := c = ' ' || c = '\t' || c = '\n' || c = '\r'

/-- Drop leading JSON whitespace. -/
def skipWs (s : JStr) : JStr := s.dropWhile jsonWs

/-- Value of one hexadecimal digit. -/
def hexVal (c : Char) : Option Nat :=
  if '0' ≤ c ∧ c ≤ '9' then some (c.toNat - 48)
  else if 'a' ≤ c ∧ c ≤ 'f' then some (c.toNat - 87)
  else if 'A' ≤ c ∧ c ≤ 'F' then some (c.toNat - 55)
  else none

/-- Parse the body of a JSON string literal (input starts after the opening
quote); returns the decoded content and the rest after the closing quote.
A `\u` escape whose code point is not a valid scalar value decodes to NUL,
mirroring that JavaScript would keep a lone surrogate (no claim depends on
the exact character produced there). -/
def parseStringLit : JStr → Option (JStr × JStr)
  | [] => none
  | c :: rest =>
    if c = '"' then some ([], rest)
    else if c = '\\' then
      match rest with
      | [] => none
      | e :: rest2 =>
        if e = 'u' then
          match rest2 with
          | a :: b :: c2 :: d :: rest3 =>
            match hexVal a, hexVal b, hexVal c2, hexVal d with
            | some x1, some x2, some x3, some x4 =>
              (parseStringLit rest3).map fun p =>
                (Char.ofNat (((x1 * 16 + x2) * 16 + x3) * 16 + x4) :: p.1, p.2)
            | _, _, _, _ => none
          | _ => none
        else
          let dec : Option Char :=
            if e = '"' then some '"'
            else if e = '\\' then some '\\'
            else if e = '/' then some '/'
            else if e = 'b' then some '\x08'
            else if e = 'f' then some '\x0c'
            else if e = 'n' then some '\n'
            else if e = 'r' then some '\r'
            else if e = 't' then some '\t'
            else none
          match dec with
          | some ch => (parseStringLit rest2).map fun p => (ch :: p.1, p.2)
          | none => none
    else if c.toNat < 32 then none
    else (parseStringLit rest).map fun p => (c :: p.1, p.2)

/-- Leading decimal digits of a string, and the rest. -/
def jdigits (s : JStr) : JStr × JStr := (s.takeWhile Char.isDigit, s.dropWhile Char.isDigit)

/-- Numeric value of a digit string. -/
def natOfDigits (s : JStr) : Nat := s.foldl (fun a c => a * 10 + (c.toNat - 48)) 0

/-- Parse the optional fraction part of a JSON number. -/
def parseFracPart : JStr → Option (JStr × JStr)
  | '.' :: r =>
    match jdigits r with
    | ([], _) => none
    | (fp, rest) => some (fp, rest)
  | s => some ([], s)

/-- Parse the optional exponent part of a JSON number. -/
def parseExpPart : JStr → Option (Int × JStr)
  | [] => some (0, [])
  | c :: r =>
    if c = 'e' ∨ c = 'E' then
      match r with
      | '+' :: r2 =>
        match jdigits r2 with
        | ([], _) => none
        | (ds, rest) => some ((natOfDigits ds : Int), rest)
      | '-' :: r2 =>
        match jdigits r2 with
        | ([], _) => none
        | (ds, rest) => some (-(natOfDigits ds : Int), rest)
      | _ =>
        match jdigits r with
        | ([], _) => none
        | (ds, rest) => some ((natOfDigits ds : Int), rest)
    else some (0, c :: r)

/-- Parse a JSON number after the optional minus sign. -/
def parseNumTail (neg : Bool) (s : JStr) : Option (JsonVal × JStr) :=
  match jdigits s with
  | ([], _) => none
  | (ip, s2) =>
    if ip.length > 1 ∧ ip.headI = '0' then none
    else
      match parseFracPart s2 with
      | none => none
      | some (fp, s3) =>
        match parseExpPart s3 with
        | none => none
        | some (ex, s4) => some (.num neg ip fp ex, s4)

/-- Parse a JSON number. -/
def parseNumber : JStr → Option (JsonVal × JStr)
  | '-' :: r => parseNumTail true r
  | s => parseNumTail false s

/-- Intermediate results of the JSON parser. -/
inductive POut where
  | v (x : JsonVal)
  | vs (xs : List JsonVal)
  | fs (xs : List (JStr × JsonVal))

/-- Which production the JSON parser is working on. -/
inductive PMode where
  | val
  | arrItems
  | objItems

/-- Fueled recursive-descent JSON parser (one function for the three
mutually recursive productions, recursing structurally on the fuel so the
kernel can evaluate it). -/
def parseP : Nat → PMode → JStr → Option (POut × JStr)
  | 0, _, _ => none
  | fuel + 1, .val, s =>
    match skipWs s with
    | [] => none
    | '"' :: r => (parseStringLit r).map fun p => (.v (.str p.1), p.2)
    | '[' :: r =>
      match skipWs r with
      | ']' :: r3 => some (.v (.arr []), r3)
      | r2 =>
        match parseP fuel .arrItems r2 with
        | some (.vs xs, rest) => some (.v (.arr xs), rest)
        | _ => none
    | '\x7b' :: r =>
      match skipWs r with
      | '\x7d' :: r3 => some (.v (.obj []), r3)
      | r2 =>
        match parseP fuel .objItems r2 with
        | some (.fs xs, rest) => some (.v (.obj xs), rest)
        | _ => none
    | 't' :: 'r' :: 'u' :: 'e' :: r => some (.v (.bool true), r)
    | 'f' :: 'a' :: 'l' :: 's' :: 'e' :: r => some (.v (.bool false), r)
    | 'n' :: 'u' :: 'l' :: 'l' :: r => some (.v .null, r)
    | s2 => (parseNumber s2).map fun p => (.v p.1, p.2)
  | fuel + 1, .arrItems, s =>
    match parseP fuel .val s with
    | some (.v x, r) =>
      (match skipWs r with
       | ',' :: r2 =>
         match parseP fuel .arrItems r2 with
         | some (.vs xs, r3) => some (.vs (x :: xs), r3)
         | _ => none
       | ']' :: r2 => some (.vs [x], r2)
       | _ => none)
    | _ => none
  | fuel + 1, .objItems, s =>
    match skipWs s with
    | '"' :: r =>
      match parseStringLit r with
      | none => none
      | some (k, r2) =>
        match skipWs r2 with
        | ':' :: r4 =>
          match parseP fuel .val r4 with
          | some (.v x, r5) =>
            (match skipWs r5 with
             | ',' :: r6 =>
               match parseP fuel .objItems r6 with
               | some (.fs xs, r7) => some (.fs ((k, x) :: xs), r7)
               | _ => none
             | '\x7d' :: r6 => some (.fs [(k, x)], r6)
             | _ => none)
          | _ => none
        | _ => none
    | _ => none

/-- Model of JavaScript `JSON.parse`: parse one JSON value and require the
whole input to be consumed (up to trailing whitespace); `none` models a
thrown `SyntaxError`. -/
def jsonParse (s : JStr) : Option JsonVal :=
  match parseP (2 * s.length + 2) .val s with
  | some (.v x, rest) => if skipWs rest = [] then some x else none
  | _ => none

/-! ## Line classifier (`parseSpecLine`, spec-stream.ts lines 16-31) -/
/-- Field lookup on a parsed JSON object.  `JSON.parse` keeps the last of
duplicate keys, hence the left fold. -/
def jGet (fields : List (JStr × JsonVal)) (k : JStr) : Option JsonVal :=
  fields.foldl (fun acc p => if p.1 = k then some p.2 else acc) none

/-- JavaScript truthiness of a JSON value: `null`, `false`, `0` (also
`-0`, `0.0`) and `""` are falsy; arrays and objects are always truthy. -/
def jsTruthy : JsonVal → Bool
  | .null => false
  | .bool b => b
  | .num _ ip fp _ => (ip ++ fp).any fun c => c ≠ '0'
  | .str s => !s.isEmpty
  | .arr _ => true
  | .obj _ => true

/-- The check `parsed.op && parsed.path` from `parseSpecLine`: the parsed
value is an object with a truthy `op` field and a truthy `path` field.
(On `null` the property access throws and `parseSpecLine` lands in the
`catch`, which classifies as text exactly as the falsy cases do.) -/
def isPatchObj (v : JsonVal) : Bool :=
  match v with
  | .obj fs =>
    (match jGet fs (s2l "op") with | some x => jsTruthy x | none => false) &&
    (match jGet fs (s2l "path") with | some x => jsTruthy x | none => false)
  | _ => false

/-- Result of classifying one line (type `ParsedLine` in types.ts): either
a patch (carrying the whole parsed JSON object) or verbatim text. -/
inductive ParsedLine where
  | patch (data : JsonVal)
  | text (content : JStr)

/-- `parseSpecLine` (spec-stream.ts lines 16-31): trim; empty means skip;
JSON objects with truthy `op` and `path` are patches; everything else is
text carrying the original, untrimmed line. -/
def parseSpecLine (line : JStr) : Option ParsedLine :=
  let trimmed := jsTrim line
  if trimmed = [] then none
  else
    match jsonParse trimmed with
    | none => some (.text line)
    | some parsed =>
      if isPatchObj parsed then some (.patch parsed) else some (.text line)

/-! ## SpecStreamBuffer (spec-stream.ts lines 37-71) -/
/-- `SpecStreamBuffer.processChunk`: append the chunk to the buffer, split
on newlines, keep the unterminated tail as the new buffer, and classify
each complete line (dropping lines that classify to nothing). -/
def specProcessChunk (buffer chunk : JStr) : List ParsedLine × JStr :=
  let p := splitLines (buffer ++ chunk)
  (p.1.filterMap parseSpecLine, p.2)

/-- `SpecStreamBuffer.flush`: nothing if the buffer is whitespace-only
(the buffer is then left as is, mirroring the early return); otherwise the
classified buffered tail, and the buffer is cleared. -/
def specFlush (buffer : JStr) : Option ParsedLine × JStr :=
  if jsTrim buffer = [] then (none, buffer)
  else (parseSpecLine buffer, [])

/-- The raw line-reassembly part of a sequence of `processChunk` calls:
fold the chunks through the buffer, collecting every complete line. -/
def runBuffer : JStr → List JStr → List JStr × JStr
  | st, [] => ([], st)
  | st, c :: cs =>
    let p := splitLines (st ++ c)
    let q := runBuffer p.2 cs
    (p.1 ++ q.1, q.2)

/-! ## Patch engine

Modelled from the spec: the function `applySpecStreamPatch` used by
`applySpecPatch` (spec-stream.ts lines 80-89) lives in the external
`@json-render/core` package whose source is not part of this repository.
The engine below follows spec §4.3 (PatchEngine): slash-delimited pointer
paths with `~0`/`~1` escaping, `add`/`replace` interchangeable on object
fields, container creation on `add`, idempotent `remove`, `move`/`copy`
via get-then-(remove-then-)add, and `test` via deep equality.  Failures
are explicit (`Except`), covering `InvalidPatchPath` and
`PatchTestFailed` from spec §7. -/
/-- Patch application failures (spec §7 taxonomy). -/
inductive PatchErr where
  | invalidPath
  | testFailed
  | missingValue
  | unknownOp
  | missingFrom
deriving DecidableEq

/-- Decode JSON-pointer escapes: `~1` is `/`, `~0` is `~`. -/
def ptrDecode : JStr → JStr
  | [] => []
  | '~' :: '1' :: r => '/' :: ptrDecode r
  | '~' :: '0' :: r => '~' :: ptrDecode r
  | c :: r => c :: ptrDecode r

/-- Split a pointer body on `/` (the leading `/` already removed). -/
def splitSlash : JStr → List JStr
  | [] => [[]]
  | c :: r =>
    if c = '/' then [] :: splitSlash r
    else
      match splitSlash r with
      | [] => [[c]]
      | l :: ls => (c :: l) :: ls

/-- Pointer path to decoded segments; `none` when the path does not start
with `/` (resolution failure, spec §4.3). -/
def ptrSegs : JStr → Option (List JStr)
  | '/' :: r => some ((splitSlash r).map ptrDecode)
  | _ => none

/-- Array index segment (digits only). -/
def parseArrIndex (s : JStr) : Option Nat :=
  if s ≠ [] ∧ s.all Char.isDigit then some (natOfDigits s) else none

/-- Insert-or-overwrite a field of a JSON object, keeping field order. -/
def setField (fs : List (JStr × JsonVal)) (k : JStr) (v : JsonVal) :
    List (JStr × JsonVal) :=
  if fs.any fun p => p.1 = k then fs.map fun p => if p.1 = k then (k, v) else p
  else fs ++ [(k, v)]

/-- Fresh container for a missing intermediate path step: an array when the
next segment is a position, an object otherwise (spec §4.3, `add`). -/
def emptyContainerFor (seg : JStr) : JsonVal :=
  if seg = ['-'] ∨ (parseArrIndex seg).isSome then .arr [] else .obj []

/-- Resolve a pointer to the value it addresses. -/
def getAt : JsonVal → List JStr → Option JsonVal
  | doc, [] => some doc
  | doc, seg :: rest =>
    match doc with
    | .obj fs =>
      match jGet fs seg with
      | some v => getAt v rest
      | none => none
    | .arr xs =>
      match parseArrIndex seg with
      | some i =>
        match xs.get? i with
        | some v => getAt v rest
        | none => none
      | none => none
    | _ => none

/-- Write a value at a pointer.  In insert mode (`add`) missing
intermediate containers are created and array segments insert; otherwise
(`replace`) the location must exist and array segments overwrite.
`none` is a resolution failure. -/
def setAt (insertMode : Bool) : JsonVal → List JStr → JsonVal → Option JsonVal
  | _, [], v => some v
  | doc, [seg], v =>
    match doc with
    | .obj fs => some (.obj (setField fs seg v))
    | .arr xs =>
      if insertMode then
        if seg = ['-'] then some (.arr (xs ++ [v]))
        else
          match parseArrIndex seg with
          | some i =>
            if i ≤ xs.length then some (.arr (xs.take i ++ v :: xs.drop i)) else none
          | none => none
      else
        match parseArrIndex seg with
        | some i => if i < xs.length then some (.arr (xs.set i v)) else none
        | none => none
    | _ => none
  | doc, seg :: next :: rest, v =>
    match doc with
    | .obj fs =>
      let child :=
        match jGet fs seg with
        | some c => some c
        | none => if insertMode then some (emptyContainerFor next) else none
      match child with
      | none => none
      | some c =>
        match setAt insertMode c (next :: rest) v with
        | some c2 => some (.obj (setField fs seg c2))
        | none => none
    | .arr xs =>
      match parseArrIndex seg with
      | some i =>
        match xs.get? i with
        | some c =>
          match setAt insertMode c (next :: rest) v with
          | some c2 => some (.arr (xs.set i c2))
          | none => none
        | none =>
          if insertMode ∧ i = xs.length then
            match setAt insertMode (emptyContainerFor next) (next :: rest) v with
            | some c2 => some (.arr (xs ++ [c2]))
            | none => none
          else none
      | none => none
    | _ => none

/-- Remove the value at a pointer; unresolvable paths are a no-op
(spec §4.3: removing a non-existent id is not an error). -/
def removeAt : JsonVal → List JStr → JsonVal
  | doc, [] => doc
  | doc, [seg] =>
    match doc with
    | .obj fs => .obj (fs.filter fun p => !(p.1 = seg : Bool))
    | .arr xs =>
      match parseArrIndex seg with
      | some i => .arr (xs.take i ++ xs.drop (i + 1))
      | none => doc
    | _ => doc
  | doc, seg :: next :: rest =>
    match doc with
    | .obj fs =>
      match jGet fs seg with
      | some c => .obj (setField fs seg (removeAt c (next :: rest)))
      | none => doc
    | .arr xs =>
      match parseArrIndex seg with
      | some i =>
        match xs.get? i with
        | some c => .arr (xs.set i (removeAt c (next :: rest)))
        | none => doc
      | none => doc
    | _ => doc

mutual

/-- Structural deep equality of JSON values (used by `test`). -/
def jsonEq : JsonVal → JsonVal → Bool
  | .null, .null => true
  | .bool x, .bool y => x == y
  | .num n1 i1 f1 e1, .num n2 i2 f2 e2 => n1 == n2 && i1 == i2 && f1 == f2 && e1 == e2
  | .str x, .str y => x == y
  | .arr xs, .arr ys => jsonEqArr xs ys
  | .obj fs, .obj gs => jsonEqObj fs gs
  | _, _ => false

/-- Pointwise deep equality of JSON arrays. -/
def jsonEqArr : List JsonVal → List JsonVal → Bool
  | [], [] => true
  | x :: xs, y :: ys => jsonEq x y && jsonEqArr xs ys
  | _, _ => false

/-- Pointwise deep equality of JSON object fields. -/
def jsonEqObj : List (JStr × JsonVal) → List (JStr × JsonVal) → Bool
  | [], [] => true
  | p :: fs, q :: gs => p.1 == q.1 && jsonEq p.2 q.2 && jsonEqObj fs gs
  | _, _ => false

end

/-- One patch operation against a document (spec §4.3).  `op` and `path`
come from the patch object; `value` and `src` are its optional `value` and
`from` fields. -/
def applyCore (doc : JsonVal) (op path : JStr) (value src : Option JsonVal) :
    Except PatchErr JsonVal :=
  match ptrSegs path with
  | none => .error .invalidPath
  | some segs =>
    if op = s2l "add" then
      match value with
      | none => .error .missingValue
      | some v =>
        match setAt true doc segs v with
        | some d2 => .ok d2
        | none => .error .invalidPath
    else if op = s2l "replace" then
      match value with
      | none => .error .missingValue
      | some v =>
        match setAt false doc segs v with
        | some d2 => .ok d2
        | none => .error .invalidPath
    else if op = s2l "remove" then .ok (removeAt doc segs)
    else if op = s2l "move" then
      match src with
      | some (.str f) =>
        match ptrSegs f with
        | none => .error .invalidPath
        | some fsegs =>
          match getAt doc fsegs with
          | none => .error .invalidPath
          | some v =>
            match setAt true (removeAt doc fsegs) segs v with
            | some d2 => .ok d2
            | none => .error .invalidPath
      | _ => .error .missingFrom
    else if op = s2l "copy" then
      match src with
      | some (.str f) =>
        match ptrSegs f with
        | none => .error .invalidPath
        | some fsegs =>
          match getAt doc fsegs with
          | none => .error .invalidPath
          | some v =>
            match setAt true doc segs v with
            | some d2 => .ok d2
            | none => .error .invalidPath
      | _ => .error .missingFrom
    else if op = s2l "test" then
      match value with
      | none => .error .missingValue
      | some v =>
        match getAt doc segs with
        | none => .error .invalidPath
        | some cur => if jsonEq cur v then .ok doc else .error .testFailed
    else .error .unknownOp

/-- `applySpecPatch` (spec-stream.ts lines 80-89) on a raw parsed patch
object, as the orchestrator calls it.  The TypeScript version deep-clones
and then mutates the clone; in this pure embedding that is simply a
function returning the new document.  A thrown error is `.error`. -/
def applySpecPatch (doc patchObj : JsonVal) : Except PatchErr JsonVal :=
  match patchObj with
  | .obj fs =>
    match jGet fs (s2l "op"), jGet fs (s2l "path") with
    | some (.str op), some (.str path) =>
      applyCore doc op path (jGet fs (s2l "value")) (jGet fs (s2l "from"))
    | some _, some _ => .error .unknownOp
    | _, _ => .error .invalidPath
  | _ => .error .invalidPath

/-! ## buildSpec (spec-stream.ts lines 94-116) -/
/-- A patch as typed in types.ts (`op`, `path`, optional `value`, optional
`from`). -/
structure SpecPatch where
  op : JStr
  path : JStr
  value : Option JsonVal := none
  src : Option JStr := none

/-- Apply a typed patch (the `SpecPatch` interface view of a patch). -/
def applySpecPatchS (doc : JsonVal) (p : SpecPatch) : Except PatchErr JsonVal :=
  applyCore doc p.op p.path p.value (p.src.map .str)

/-- The empty Spec `\x7b root: "", elements: \x7b\x7d \x7d`. -/
def emptySpec : JsonVal :=
  .obj [(s2l "root", .str []), (s2l "elements", .obj [])]

/-- The regex `^\/elements\/[^/]+$` from `buildSpec`: a path that directly
addresses `/elements/<id>` with a single non-empty id segment; returns the
id. -/
def directElementKey (path : JStr) : Option JStr :=
  if (s2l "/elements/").isPrefixOf path then
    let rest := path.drop 10
    if rest = [] then none
    else if '/' ∈ rest then none
    else some rest
  else none

/-- The check `!spec.root` in `buildSpec`: missing or falsy `root`. -/
def specRootFalsy (doc : JsonVal) : Bool :=
  match doc with
  | .obj fs =>
    match jGet fs (s2l "root") with
    | some v => !jsTruthy v
    | none => true
  | _ => true

/-- The assignment `spec.root = firstElementKey` in `buildSpec`. -/
def setSpecRoot (doc : JsonVal) (k : JStr) : JsonVal :=
  match doc with
  | .obj fs => .obj (setField fs (s2l "root") (.str k))
  | d => d

/-- The loop of `buildSpec`: track the first direct element key with op
`add` or `replace`, and thread the document through `applySpecPatch`
(a thrown patch error aborts the whole fold, as in the source). -/
def buildSpecGo : JsonVal → Option JStr → List SpecPatch →
    Except PatchErr (JsonVal × Option JStr)
  | spec, fek, [] => .ok (spec, fek)
  | spec, fek, p :: rest =>
    let fek2 :=
      match fek with
      | some k => some k
      | none =>
        if p.op = s2l "add" ∨ p.op = s2l "replace" then directElementKey p.path
        else none
    match applySpecPatchS spec p with
    | .error e => .error e
    | .ok spec2 => buildSpecGo spec2 fek2 rest

/-- `buildSpec` (spec-stream.ts lines 94-116): fold the patches from the
empty Spec, then infer `root` from the first directly added or replaced
element when `root` is still falsy. -/
def buildSpec (patches : List SpecPatch) : Except PatchErr JsonVal :=
  match buildSpecGo emptySpec none patches with
  | .error e => .error e
  | .ok (spec, fek) =>
    .ok
      (match fek with
       | some k => if specRootFalsy spec then setSpecRoot spec k else spec
       | none => spec)

/-! ## Stream orchestrator (`UITransport.processResponseStream`,
transport.ts lines 122-258)

The outer NDJSON/SSE envelope decoding (`JSON.parse` of each event line,
`data:` prefix stripping, `[DONE]`) is not what any claim is about; the
orchestrator is therefore modelled over the already-decoded outer chunks.
All the stream state of `processResponseStream` is carried explicitly:
the single `specBuffer`, `currentSpec`, `segmentIndex` and
`currentSegmentText`. -/
/-- One decoded outer event (`UIMessageChunk`); the code reads only the
`type` of a chunk and the `delta` of a `text-delta` — the `id` of a text
chunk is carried here but, like in the source, never consulted. -/
inductive OuterChunk where
  | textStart (id : JStr)
  | textDelta (id : JStr) (delta : JStr)
  | textEnd (id : JStr)
  | other (payload : JsonVal)

/-- One emitted downstream chunk: `data-ui` (a Spec snapshot),
`data-ui-text` (id `ui-text-<ix>`, segmentId `seg-<ix>`, cumulative text),
or a pass-through of an unrecognised chunk. -/
inductive OutEvent where
  | dataUI (spec : JsonVal)
  | uiText (ix : Nat) (text : JStr)
  | passthrough (payload : JsonVal)

/-- The mutable state of `processResponseStream`. -/
structure TState where
  buf : JStr
  spec : JsonVal
  segIx : Nat
  segText : JStr

/-- Initial state: empty buffer, empty Spec, segment 0, no text. -/
def initState : TState := ⟨[], emptySpec, 0, []⟩

/-- `splitTextSegment` (transport.ts lines 148-152): advance the segment
index only when the open segment has accumulated text. -/
def splitSeg (st : TState) : TState :=
  if st.segText = [] then st
  else { st with segIx := st.segIx + 1, segText := [] }

/-- The state change of `emitUIText` (transport.ts lines 136-146): append
to the open segment's text (the emitted event carries the new total). -/
def appendSeg (st : TState) (t : JStr) : TState :=
  { st with segText := st.segText ++ t }

/-- The loop over parsed items of one `text-delta` (transport.ts lines
174-190).  A text item appends content plus `"\n"` and emits the
cumulative segment text; a patch item closes the segment, applies the
patch and emits the new Spec.  A patch error is the thrown exception: it
is caught by the surrounding `catch`, so the already-emitted events stand,
the Spec assignment did not happen, and the remaining items of this chunk
are skipped. -/
def processItems : TState → List ParsedLine → TState × List OutEvent
  | st, [] => (st, [])
  | st, .text c :: rest =>
    let st1 := appendSeg st (c ++ ['\n'])
    let q := processItems st1 rest
    (q.1, .uiText st1.segIx st1.segText :: q.2)
  | st, .patch d :: rest =>
    let st1 := splitSeg st
    match applySpecPatch st1.spec d with
    | .error _ => (st1, [])
    | .ok sp =>
      let st2 := { st1 with spec := sp }
      let q := processItems st2 rest
      (q.1, .dataUI sp :: q.2)

/-- One outer chunk through `processLine`'s type dispatch (transport.ts
lines 171-221): `text-delta` goes through the spec buffer and the item
loop; `text-end` flushes the spec buffer (patch remainders are applied,
text remainders are appended without a terminator) and closes the
segment; `text-start` is suppressed; everything else passes through. -/
def stepChunk (st : TState) : OuterChunk → TState × List OutEvent
  | .textStart _ => (st, [])
  | .textDelta _ delta =>
    let p := splitLines (st.buf ++ delta)
    processItems { st with buf := p.2 } (p.1.filterMap parseSpecLine)
  | .textEnd _ =>
    if jsTrim st.buf = [] then (splitSeg st, [])
    else
      match parseSpecLine st.buf with
      | some (.patch d) =>
        let st1 := splitSeg { st with buf := [] }
        match applySpecPatch st1.spec d with
        | .error _ => (st1, [])
        | .ok sp => (splitSeg { st1 with spec := sp }, [.dataUI sp])
      | some (.text c) =>
        let st1 := appendSeg { st with buf := [] } c
        (splitSeg st1, [.uiText st1.segIx st1.segText])
      | none => (splitSeg { st with buf := [] }, [])
  | .other payload => (st, [.passthrough payload])

/-- Fold a list of outer chunks through `stepChunk`, concatenating the
emitted events. -/
def runChunks : TState → List OuterChunk → TState × List OutEvent
  | st, [] => (st, [])
  | st, c :: cs =>
    let p := stepChunk st c
    let q := runChunks p.1 cs
    (q.1, p.2 ++ q.2)

/-- A whole run of `processResponseStream` over decoded outer chunks.
When the outer stream ends the source only processes a pending outer
NDJSON line and closes the controller (transport.ts lines 227-250) — the
spec buffer is not flushed, which this fold mirrors by having no
end-of-stream step. -/
def runTransport (cs : List OuterChunk) : TState × List OutEvent :=
  runChunks initState cs

/-! ## Helper lemmas for buildSpec (C7) -/
/-- Plain threading fold of `applySpecPatch` without root inference. -/
def foldPatches : JsonVal → List SpecPatch → Except PatchErr JsonVal
  | spec, [] => .ok spec
  | spec, p :: rest =>
    match applySpecPatchS spec p with
    | .error e => .error e
    | .ok spec2 => foldPatches spec2 rest

/-- The first patch, in order, that directly adds or replaces an entry at
`/elements/<id>` (single-segment id); returns that id. -/
def firstDirectKey : List SpecPatch → Option JStr
  | [] => none
  | p :: rest =>
    match
      (if p.op = s2l "add" ∨ p.op = s2l "replace" then directElementKey p.path
       else none) with
    | some k => some k
    | none => firstDirectKey rest

/-! ## Segment-index ordering across patch boundaries (C5) -/
/-- Whether the current segment has accumulated text. -/
def segOpen (st : TState) : Bool := !st.segText.isEmpty

/-- Floor update at a document-update boundary: when the current floor
index has been emitted (`e`), the boundary moves past it. -/
def bumpFloor : Nat → Bool → Nat
  | m, true => m + 1
  | m, false => m

/-- Scan predicate over emitted events: `m` is a floor for every upcoming
text-segment index, and `e` records whether index `m` has been emitted in
the current open segment (so that a document-update boundary bumps the
floor past it, mirroring `splitTextSegment`). -/
def UIOrd : Nat → Bool → List OutEvent → Prop
  | _, _, [] => True
  | m, _, .uiText k _ :: rest => m ≤ k ∧ UIOrd k true rest
  | m, e, .dataUI _ :: rest => UIOrd (bumpFloor m e) false rest
  | m, e, .passthrough _ :: rest => UIOrd m e rest

/-! ## Dense segment indices (C10) -/
/-- Density invariant tying the emitted events to the orchestrator's
segment counter `ix` and open-segment text `txt`: every index below `ix`
has been emitted, an open non-empty segment has emitted its own index, and
nothing beyond the current index was ever emitted. -/
def DenseInv (ix : Nat) (txt : JStr) (evs : List OutEvent) : Prop :=
  (∀ k, k < ix → ∃ t, OutEvent.uiText k t ∈ evs)
  ∧ (txt ≠ [] → ∃ t, OutEvent.uiText ix t ∈ evs)
  ∧ (∀ k t, OutEvent.uiText k t ∈ evs → k < ix ∨ (k = ix ∧ txt ≠ []))

theorem splitLines_reconstruct (s : JStr) :
    joinLines (splitLines s).1 ++ (splitLines s).2 = s := by
  induction s with
  | nil => rfl
  | cons c rest ih =>
    simp only [splitLines]
    by_cases h : c = '\n'
    · simp only [h, if_pos rfl, joinLines, List.foldr]
      simpa [joinLines] using ih
    · simp only [if_neg h]
      cases hp : (splitLines rest).1 with
      | nil =>
        simp only [joinLines, List.foldr]
        rw [hp] at ih
        simpa [joinLines] using ih
      | cons l ls =>
        simp only [joinLines, List.foldr, List.cons_append]
        rw [hp] at ih
        simpa [joinLines] using ih

theorem splitLines_count (s : JStr) :
    (splitLines s).1.length = s.count '\n' := by
  induction s with
  | nil => rfl
  | cons c rest ih =>
    simp only [splitLines]
    by_cases h : c = '\n'
    · simp [h, List.count_cons, ih]
    · simp only [if_neg h]
      cases hp : (splitLines rest).1 with
      | nil =>
        rw [hp] at ih
        simp [List.count_cons, Ne.symm h, ih.symm, hp]
      | cons l ls =>
        rw [hp] at ih
        simp [List.count_cons, Ne.symm h, ← ih, hp]

theorem splitLines_fst_no_nl (s : JStr) : ∀ l ∈ (splitLines s).1, '\n' ∉ l := by
  induction s with
  | nil => simp [splitLines]
  | cons c rest ih =>
    simp only [splitLines]
    by_cases h : c = '\n'
    · simp only [h, if_pos rfl]
      intro l hl
      rcases List.mem_cons.mp hl with h1 | h2
      · simp [h1]
      · exact ih l h2
    · cases hp : (splitLines rest).1 with
      | nil => simp [if_neg h]
      | cons l ls =>
        simp only [if_neg h]
        intro l2 hl2
        rcases List.mem_cons.mp hl2 with h1 | h2
        · subst h1
          intro hmem
          rcases List.mem_cons.mp hmem with h3 | h4
          · exact h h3.symm
          · exact ih l (by simp [hp]) h4
        · exact ih l2 (by simp [hp, h2])

theorem splitLines_tail_no_nl (s : JStr) : '\n' ∉ (splitLines s).2 := by
  induction s with
  | nil => simp [splitLines]
  | cons c rest ih =>
    simp only [splitLines]
    by_cases h : c = '\n'
    · simpa [h] using ih
    · cases hp : (splitLines rest).1 with
      | nil =>
        simp only [if_neg h]
        intro hmem
        rcases List.mem_cons.mp hmem with h1 | h2
        · exact h h1.symm
        · exact ih h2
      | cons l ls =>
        simp only [if_neg h]
        exact ih

/-! ## Helper lemmas for line reassembly (C3) -/
theorem joinLines_acc (a : List JStr) (X : JStr) :
    a.foldr (fun l acc => l ++ '\n' :: acc) X = joinLines a ++ X := by
  induction a with
  | nil => rfl
  | cons l ls ih =>
    simp only [List.foldr, ih]
    simp [joinLines, List.foldr, List.cons_append, List.append_assoc]

theorem joinLines_append (a b : List JStr) :
    joinLines (a ++ b) = joinLines a ++ joinLines b := by
  simp only [joinLines, List.foldr_append]
  exact joinLines_acc a (List.foldr (fun l acc => l ++ '\n' :: acc) [] b)

theorem runBuffer_reconstruct (cs : List JStr) :
    ∀ st, joinLines (runBuffer st cs).1 ++ (runBuffer st cs).2 = st ++ cs.flatten := by
  induction cs with
  | nil => intro st; simp [runBuffer, joinLines]
  | cons c cs ih =>
    intro st
    simp only [runBuffer, List.flatten_cons]
    rw [joinLines_append, List.append_assoc, ih]
    rw [← List.append_assoc, splitLines_reconstruct, List.append_assoc]

theorem runBuffer_count (cs : List JStr) :
    ∀ st, '\n' ∉ st → (runBuffer st cs).1.length = (st ++ cs.flatten).count '\n' := by
  induction cs with
  | nil =>
    intro st h
    simp [runBuffer, List.count_eq_zero.mpr h]
  | cons c cs ih =>
    intro st h
    simp only [runBuffer, List.flatten_cons, List.length_append]
    rw [ih _ (splitLines_tail_no_nl _), splitLines_count]
    rw [List.count_append, List.count_append,
      List.count_eq_zero.mpr (splitLines_tail_no_nl (st ++ c)), Nat.zero_add,
      ← List.append_assoc, List.count_append, List.count_append]

theorem runBuffer_tail_no_nl (cs : List JStr) :
    ∀ st, '\n' ∉ st → '\n' ∉ (runBuffer st cs).2 := by
  induction cs with
  | nil => intro st h; simpa [runBuffer] using h
  | cons c cs ih =>
    intro st _
    simp only [runBuffer]
    exact ih _ (splitLines_tail_no_nl _)

theorem parseSpecLine_isSome (line : JStr) (h : jsTrim line ≠ []) :
    ∃ pl, parseSpecLine line = some pl := by
  unfold parseSpecLine
  simp only [if_neg h]
  cases jsonParse (jsTrim line) with
  | none => exact ⟨.text line, rfl⟩
  | some parsed =>
    by_cases hp : isPatchObj parsed = true
    · exact ⟨.patch parsed, by simp [hp]⟩
    · exact ⟨.text line, by simp [hp]⟩

/-- C3: for any sequence of fragments pushed into the buffer whose
concatenation contains `N` line terminators, the raw line-splitting stage
of `processChunk` yields exactly `N` complete lines, in order, whose
content reproduces the original text verbatim minus the terminators
(reattaching a terminator to each yielded line and appending the leftover
buffer reproduces the concatenated input); `flush` then returns the
buffered tail, classified, as one final pseudo-line if it is non-empty
after trimming and clears the buffer, and returns nothing if the buffer
was empty or whitespace-only. -/
theorem C3_line_reassembly (chunks : List JStr) :
    (runBuffer [] chunks).1.length = chunks.flatten.count '\n'
    ∧ joinLines (runBuffer [] chunks).1 ++ (runBuffer [] chunks).2 = chunks.flatten
    ∧ (jsTrim (runBuffer [] chunks).2 = [] →
        specFlush (runBuffer [] chunks).2 = (none, (runBuffer [] chunks).2))
    ∧ (jsTrim (runBuffer [] chunks).2 ≠ [] →
        ∃ pl, parseSpecLine (runBuffer [] chunks).2 = some pl ∧
          specFlush (runBuffer [] chunks).2 = (some pl, [])) := by
  refine ⟨?_, ?_, ?_, ?_⟩
  · simpa using runBuffer_count chunks [] (by simp)
  · simpa using runBuffer_reconstruct chunks []
  · intro h
    simp [specFlush, h]
  · intro h
    obtain ⟨pl, hpl⟩ := parseSpecLine_isSome _ h
    exact ⟨pl, hpl, by simp [specFlush, h, hpl]⟩

/-- Witness for C3: a concrete two-chunk push with one terminator, and a
non-whitespace tail that flush returns as a classified pseudo-line. -/
theorem C3_witness :
    jsTrim (runBuffer [] [s2l "ab", s2l "c\nde"]).2 ≠ [] ∧
    (∃ pl, parseSpecLine (runBuffer [] [s2l "ab", s2l "c\nde"]).2 = some pl ∧
      specFlush (runBuffer [] [s2l "ab", s2l "c\nde"]).2 = (some pl, [])) ∧
    (runBuffer [] [s2l "ab", s2l "c\nde"]).1.length =
      ([s2l "ab", s2l "c\nde"] : List JStr).flatten.count '\n' :=
  ⟨by decide, (C3_line_reassembly [s2l "ab", s2l "c\nde"]).2.2.2 (by decide),
    (C3_line_reassembly [s2l "ab", s2l "c\nde"]).1⟩

/-- C4: the classifier is a three-way case split.  A line that trims to
empty yields nothing; a line whose trimmed form fails JSON parsing, or
parses to a value without a truthy `op` field or without a truthy `path`
field, yields Text whose content is the original untrimmed line; a line
parsing to an object with truthy `op` and truthy `path` yields Patch
carrying the whole parsed object, with no further validation. -/
theorem C4_classifier_cases (line : JStr) :
    (jsTrim line = [] → parseSpecLine line = none)
    ∧ (jsTrim line ≠ [] → jsonParse (jsTrim line) = none →
        parseSpecLine line = some (.text line))
    ∧ (∀ v, jsTrim line ≠ [] → jsonParse (jsTrim line) = some v →
        isPatchObj v = false → parseSpecLine line = some (.text line))
    ∧ (∀ v, jsTrim line ≠ [] → jsonParse (jsTrim line) = some v →
        isPatchObj v = true → parseSpecLine line = some (.patch v)) := by
  refine ⟨?_, ?_, ?_, ?_⟩
  · intro h
    simp [parseSpecLine, h]
  · intro h hp
    simp [parseSpecLine, h, hp]
  · intro v h hv hp
    simp [parseSpecLine, h, hv, hp]
  · intro v h hv hp
    simp [parseSpecLine, h, hv, hp]

/-- Witness for C4: each of the three classifier outcomes at a concrete
line — whitespace-only, plain text (valid word, invalid JSON), a JSON
value without patch fields, and a real patch object. -/
theorem C4_witness :
    parseSpecLine (s2l "  ") = none
    ∧ parseSpecLine (s2l " hello ") = some (.text (s2l " hello "))
    ∧ parseSpecLine (s2l "[1]") = some (.text (s2l "[1]"))
    ∧ parseSpecLine (s2l "\x7b\"op\":\"add\",\"path\":\"/x\"\x7d") =
        some (.patch (.obj [(s2l "op", .str (s2l "add")),
          (s2l "path", .str (s2l "/x"))])) :=
  ⟨(C4_classifier_cases (s2l "  ")).1 (by decide),
   (C4_classifier_cases (s2l " hello ")).2.1 (by decide) (by rfl),
   (C4_classifier_cases (s2l "[1]")).2.2.1 (.arr [.num false ['1'] [] 0])
     (by decide) (by rfl) (by rfl),
   (C4_classifier_cases (s2l "\x7b\"op\":\"add\",\"path\":\"/x\"\x7d")).2.2.2
     (.obj [(s2l "op", .str (s2l "add")), (s2l "path", .str (s2l "/x"))])
     (by decide) (by rfl) (by rfl)⟩

theorem buildSpecGo_some_key (ps : List SpecPatch) :
    ∀ spec k s, foldPatches spec ps = .ok s →
      buildSpecGo spec (some k) ps = .ok (s, some k) := by
  induction ps with
  | nil =>
    intro spec k s h
    simp only [foldPatches] at h
    cases h
    rfl
  | cons p rest ih =>
    intro spec k s h
    simp only [foldPatches] at h
    simp only [buildSpecGo]
    cases happ : applySpecPatchS spec p with
    | error e => rw [happ] at h; exact absurd h (by simp)
    | ok spec2 =>
      rw [happ] at h
      exact ih spec2 k s h

theorem buildSpecGo_track (ps : List SpecPatch) :
    ∀ spec s, foldPatches spec ps = .ok s →
      buildSpecGo spec none ps = .ok (s, firstDirectKey ps) := by
  induction ps with
  | nil =>
    intro spec s h
    simp only [foldPatches] at h
    cases h
    rfl
  | cons p rest ih =>
    intro spec s h
    simp only [foldPatches] at h
    cases happ : applySpecPatchS spec p with
    | error e => rw [happ] at h; exact absurd h (by simp)
    | ok spec2 =>
      rw [happ] at h
      simp only [buildSpecGo, happ, firstDirectKey]
      cases hd : (if p.op = s2l "add" ∨ p.op = s2l "replace" then
          directElementKey p.path else none) with
      | some k => exact buildSpecGo_some_key rest spec2 k s h
      | none => exact ih spec2 s h

/-- C7: `buildSpec` folds the patches from the empty Document threading
the result forward; afterwards, when the folded document's `root` is still
falsy (the empty string being the canonical case, via the source's
`!spec.root` test) and some patch directly added or replaced an entry at
`/elements/<id>`, `root` is set to the first such id in patch order.
Folding the empty sequence yields the empty Document, and the single
`add /elements/card1` patch yields `root = "card1"`. -/
theorem C7_buildSpec_root_inference :
    buildSpec [] = .ok emptySpec
    ∧ buildSpec [⟨s2l "add", s2l "/elements/card1",
        some (.obj [(s2l "type", .str (s2l "Card")), (s2l "props", .obj [])]),
        none⟩] =
      .ok (.obj [(s2l "root", .str (s2l "card1")),
        (s2l "elements", .obj [(s2l "card1",
          .obj [(s2l "type", .str (s2l "Card")), (s2l "props", .obj [])])])])
    ∧ (∀ patches s k, foldPatches emptySpec patches = .ok s →
        specRootFalsy s = true → firstDirectKey patches = some k →
        buildSpec patches = .ok (setSpecRoot s k))
    ∧ (∀ patches s, foldPatches emptySpec patches = .ok s →
        firstDirectKey patches = none → buildSpec patches = .ok s) := by
  refine ⟨by rfl, by rfl, ?_, ?_⟩
  · intro patches s k hfold hroot hfirst
    unfold buildSpec
    rw [buildSpecGo_track patches emptySpec s hfold, hfirst]
    simp [hroot]
  · intro patches s hfold hfirst
    unfold buildSpec
    rw [buildSpecGo_track patches emptySpec s hfold, hfirst]

/-- Witness for C7: the general root-inference branch applied to the
concrete one-patch input. -/
theorem C7_witness :
    buildSpec [⟨s2l "add", s2l "/elements/card1",
        some (.obj [(s2l "type", .str (s2l "Card")), (s2l "props", .obj [])]),
        none⟩] =
      .ok (setSpecRoot
        (.obj [(s2l "root", .str []),
          (s2l "elements", .obj [(s2l "card1",
            .obj [(s2l "type", .str (s2l "Card")), (s2l "props", .obj [])])])])
        (s2l "card1")) :=
  C7_buildSpec_root_inference.2.2.1
    [⟨s2l "add", s2l "/elements/card1",
      some (.obj [(s2l "type", .str (s2l "Card")), (s2l "props", .obj [])]),
      none⟩]
    (.obj [(s2l "root", .str []),
      (s2l "elements", .obj [(s2l "card1",
        .obj [(s2l "type", .str (s2l "Card")), (s2l "props", .obj [])])])])
    (s2l "card1") (by rfl) (by rfl) (by rfl)

/-! ## Orchestrator lemmas -/
theorem splitSeg_spec (st : TState) : (splitSeg st).spec = st.spec := by
  unfold splitSeg
  split <;> rfl

theorem splitSeg_buf (st : TState) : (splitSeg st).buf = st.buf := by
  unfold splitSeg
  split <;> rfl

/-- A text without terminator splits to no complete line. -/
theorem splitLines_no_nl (s : JStr) (h : '\n' ∉ s) : splitLines s = ([], s) := by
  induction s with
  | nil => rfl
  | cons c rest ih =>
    have hc : ¬c = '\n' := fun hc => h (by simp [hc])
    have hr : '\n' ∉ rest := fun hr => h (List.mem_cons_of_mem _ hr)
    simp only [splitLines, ih hr, if_neg hc]

theorem runChunks_append (cs ds : List OuterChunk) :
    ∀ st, runChunks st (cs ++ ds) =
      ((runChunks (runChunks st cs).1 ds).1,
        (runChunks st cs).2 ++ (runChunks (runChunks st cs).1 ds).2) := by
  induction cs with
  | nil => intro st; simp [runChunks]
  | cons c cs ih =>
    intro st
    simp only [List.cons_append, runChunks, List.append_eq]
    rw [ih]
    simp [List.append_assoc]

theorem stepChunk_buf_no_nl (st : TState) (c : OuterChunk) (h : '\n' ∉ st.buf) :
    '\n' ∉ (stepChunk st c).1.buf := by
  cases c with
  | textStart id => exact h
  | textDelta id delta =>
    simp only [stepChunk]
    have : ∀ items st2, '\n' ∉ (st2 : TState).buf →
        '\n' ∉ (processItems st2 items).1.buf := by
      intro items
      induction items with
      | nil => intro st2 h2; exact h2
      | cons item rest ih =>
        intro st2 h2
        cases item with
        | text cc => exact ih _ h2
        | patch d =>
          simp only [processItems]
          cases applySpecPatch (splitSeg st2).spec d with
          | error e => simpa [splitSeg_buf] using h2
          | ok sp => exact ih _ (by simpa [splitSeg_buf] using h2)
    exact this _ _ (splitLines_tail_no_nl _)
  | textEnd id =>
    simp only [stepChunk]
    by_cases ht : jsTrim st.buf = []
    · simpa [ht, splitSeg_buf] using h
    · simp only [if_neg ht]
      cases hp : parseSpecLine st.buf with
      | none => simp [splitSeg_buf]
      | some pl =>
        cases pl with
        | patch d =>
          simp only
          cases applySpecPatch (splitSeg { st with buf := [] }).spec d with
          | error e => simp [splitSeg_buf]
          | ok sp => simp [splitSeg_buf]
        | text cc => simp [splitSeg_buf, appendSeg]
  | other payload => exact h

theorem runChunks_buf_no_nl (cs : List OuterChunk) :
    ∀ st, '\n' ∉ st.buf → '\n' ∉ (runChunks st cs).1.buf := by
  induction cs with
  | nil => intro st h; exact h
  | cons c cs ih =>
    intro st h
    simp only [runChunks]
    exact ih _ (stepChunk_buf_no_nl st c h)

/-- C6: a Text line during text-delta processing appends its content plus
one terminator to the open segment and emits a text-segment event carrying
the segment's index and its full accumulated content so far (cumulative,
not a delta); a Text remainder at text-end is appended without a trailing
terminator and emitted as one final text-segment event. -/
theorem C6_text_cumulative_emission :
    (∀ st c rest, processItems st (.text c :: rest) =
      ((processItems (appendSeg st (c ++ ['\n'])) rest).1,
        .uiText st.segIx (st.segText ++ c ++ ['\n']) ::
          (processItems (appendSeg st (c ++ ['\n'])) rest).2))
    ∧ (∀ st id, jsTrim st.buf ≠ [] →
        parseSpecLine st.buf = some (.text st.buf) →
        stepChunk st (.textEnd id) =
          (splitSeg (appendSeg { st with buf := [] } st.buf),
            [.uiText st.segIx (st.segText ++ st.buf)])) := by
  constructor
  · intro st c rest
    simp [processItems, appendSeg, List.append_assoc]
  · intro st id ht hp
    simp only [stepChunk, if_neg ht, hp]
    rfl

/-- Witness for C6: a concrete state with an open segment `"A\n"` at index
2, fed the text line `"B"` during a delta and the unterminated remainder
`"tail"` at text-end. -/
theorem C6_witness :
    processItems ⟨s2l "tail", emptySpec, 2, s2l "A\n"⟩ [.text (s2l "B")] =
      (⟨s2l "tail", emptySpec, 2, s2l "A\nB\n"⟩,
        [.uiText 2 (s2l "A\nB\n")])
    ∧ stepChunk ⟨s2l "tail", emptySpec, 2, s2l "A\n"⟩ (.textEnd (s2l "t")) =
      (⟨[], emptySpec, 3, []⟩, [.uiText 2 (s2l "A\ntail")]) := by
  constructor
  · have h := C6_text_cumulative_emission.1 ⟨s2l "tail", emptySpec, 2, s2l "A\n"⟩
      (s2l "B") []
    rw [h]
    rfl
  · have h := C6_text_cumulative_emission.2 ⟨s2l "tail", emptySpec, 2, s2l "A\n"⟩
      (s2l "t") (by decide) (by rfl)
    rw [h]
    rfl

/-- C9 counterexample: a failing patch (its path walks into the scalar at
`/root`) reaches the orchestrator inside a text-delta; the code's `catch`
swallows the thrown error, so the run emits no event at all — nothing is
surfaced to the caller — while the threaded Spec stays untouched.  This
refutes the claim that the failure is surfaced rather than silently
discarded. -/
theorem C9_counterexample :
    (runTransport [.textDelta (s2l "t")
        (s2l "\x7b\"op\":\"add\",\"path\":\"/root/x\",\"value\":1\x7d\n")]).2 = []
    ∧ (runTransport [.textDelta (s2l "t")
        (s2l "\x7b\"op\":\"add\",\"path\":\"/root/x\",\"value\":1\x7d\n")]).1.spec =
      emptySpec := by
  constructor
  · rfl
  · rfl

/-- C9 (amended): when applying a patch fails, the failure is silently
swallowed (the surrounding catch treats it like an invalid line: no event
is emitted and the rest of the chunk's parsed items are skipped), and the
failure never corrupts document state — the orchestrator's threaded Spec
is exactly what it was before the failing patch. -/
theorem C9_patch_failure_atomic (st : TState) (d : JsonVal)
    (rest : List ParsedLine) (e : PatchErr)
    (h : applySpecPatch st.spec d = .error e) :
    processItems st (.patch d :: rest) = (splitSeg st, [])
    ∧ (splitSeg st).spec = st.spec := by
  constructor
  · simp only [processItems, splitSeg_spec, h]
  · exact splitSeg_spec st

/-- Witness for C9: the same failing patch applied from the initial state,
with a pending text item after it that the catch causes to be skipped. -/
theorem C9_witness :
    processItems initState
      [.patch (.obj [(s2l "op", .str (s2l "add")),
        (s2l "path", .str (s2l "/root/x")), (s2l "value", .num false ['1'] [] 0)]),
       .text (s2l "skipped")] = (splitSeg initState, [])
    ∧ (splitSeg initState).spec = initState.spec :=
  C9_patch_failure_atomic initState
    (.obj [(s2l "op", .str (s2l "add")),
      (s2l "path", .str (s2l "/root/x")), (s2l "value", .num false ['1'] [] 0)])
    [.text (s2l "skipped")] .invalidPath (by rfl)

/-- C1 counterexample: the outer stream ends right after a text-delta that
left `"hello"` unflushed in the spec buffer (no text-end arrived).  The
claim requires that remainder — which classifies as Text — to be flushed
and emitted as a final text-segment event before completion; the code
closes the stream without flushing the spec buffer, so the run emits no
event at all and the content stays dropped in the buffer. -/
theorem C1_counterexample :
    (runTransport [.textDelta (s2l "t") (s2l "hello")]).2 = []
    ∧ (runTransport [.textDelta (s2l "t") (s2l "hello")]).1.buf = s2l "hello" := by
  constructor
  · rfl
  · rfl

/-- C1 (amended): when the outer stream ends while the spec buffer still
holds unflushed content and no text-end was received for it, that content
is not flushed: appending a final terminator-free text-delta leaves the
emitted event sequence unchanged (the fragment only grows the buffer) and
the run ends there — the remainder is dropped silently, neither applied as
a patch nor emitted as text nor surfaced as an error. -/
theorem C1_end_of_stream_drops_buffer (cs : List OuterChunk) (id delta : JStr)
    (h : '\n' ∉ delta) :
    (runTransport (cs ++ [.textDelta id delta])).2 = (runTransport cs).2
    ∧ (runTransport (cs ++ [.textDelta id delta])).1.buf =
      (runTransport cs).1.buf ++ delta := by
  simp only [runTransport]
  have hbuf : '\n' ∉ (runChunks initState cs).1.buf :=
    runChunks_buf_no_nl cs initState (by simp [initState])
  have hnone : '\n' ∉ ((runChunks initState cs).1.buf ++ delta) := by
    intro hm
    rcases List.mem_append.mp hm with h1 | h2
    · exact hbuf h1
    · exact h h2
  have hstep : stepChunk (runChunks initState cs).1 (.textDelta id delta) =
      ({ (runChunks initState cs).1 with
          buf := (runChunks initState cs).1.buf ++ delta }, []) := by
    simp only [stepChunk, splitLines_no_nl _ hnone]
    rfl
  rw [runChunks_append]
  simp only [runChunks, hstep]
  constructor
  · simp
  · simp

/-- Witness for C1 (amended): a run with one complete text line followed
by a terminator-free trailing fragment `"hello"`; the trailing fragment
adds no event and is left in the buffer when the stream ends. -/
theorem C1_witness :
    (runTransport [.textDelta (s2l "t") (s2l "x\n"),
        .textDelta (s2l "t") (s2l "hello")]).2 =
      (runTransport [.textDelta (s2l "t") (s2l "x\n")]).2
    ∧ (runTransport [.textDelta (s2l "t") (s2l "x\n"),
        .textDelta (s2l "t") (s2l "hello")]).1.buf =
      (runTransport [.textDelta (s2l "t") (s2l "x\n")]).1.buf ++ s2l "hello" :=
  C1_end_of_stream_drops_buffer [.textDelta (s2l "t") (s2l "x\n")]
    (s2l "t") (s2l "hello") (by decide)

/-- C2 counterexample: two interleaved text-delta events carrying the
distinct identifiers `"a"` and `"b"` push their fragments into the same
single buffer, so the fragments `"foo"` (stream a) and `"bar"` (stream b)
merge into the single line `"foobar"` and the one emitted segment carries
the mixed text — refuting the claim that fragments of distinct
identifiers never mix into one another's lines or segments. -/
theorem C2_counterexample :
    (runTransport [.textDelta (s2l "a") (s2l "foo"),
        .textDelta (s2l "b") (s2l "bar\n")]).2 =
      [.uiText 0 (s2l "foobar\n")] := by
  rfl

/-- C2 (amended): the orchestrator keeps one single spec buffer shared by
all logical text streams; the identifier carried by a text event is never
consulted, so processing is identical whatever the identifier, and
fragments of interleaved distinct identifiers are concatenated into the
same lines and segments. -/
theorem C2_single_shared_buffer :
    (∀ st i1 i2 d, stepChunk st (.textDelta i1 d) = stepChunk st (.textDelta i2 d))
    ∧ (∀ st i1 i2, stepChunk st (.textEnd i1) = stepChunk st (.textEnd i2))
    ∧ (∀ st i1 i2, stepChunk st (.textStart i1) = stepChunk st (.textStart i2)) :=
  ⟨fun _ _ _ _ => rfl, fun _ _ _ => rfl, fun _ _ _ => rfl⟩

theorem bumpFloor_ge (m : Nat) (e : Bool) : m ≤ bumpFloor m e := by
  cases e <;> simp [bumpFloor]

theorem uiord_weaken (evs : List OutEvent) :
    ∀ m e m2 e2, UIOrd m e evs → m2 ≤ m → (e2 = true → e = true ∨ m2 < m) →
      UIOrd m2 e2 evs := by
  induction evs with
  | nil => intro m e m2 e2 _ _ _; trivial
  | cons ev rest ih =>
    intro m e m2 e2 hord hle hcase
    cases ev with
    | uiText k t =>
      obtain ⟨hmk, hrest⟩ := hord
      exact ⟨Nat.le_trans hle hmk, hrest⟩
    | dataUI s =>
      simp only [UIOrd] at hord ⊢
      refine ih _ false _ false hord ?_ (by intro hc; cases hc)
      have hb : bumpFloor m2 e2 ≤ bumpFloor m e := by
        cases e2 with
        | false =>
          simp only [bumpFloor]
          exact Nat.le_trans hle (bumpFloor_ge m e)
        | true =>
          simp only [bumpFloor]
          rcases hcase rfl with he | hlt
          · subst he; simp only [bumpFloor]; omega
          · exact Nat.le_trans (by omega) (bumpFloor_ge m e)
      exact hb
    | passthrough p =>
      simp only [UIOrd] at hord ⊢
      exact ih _ _ _ _ hord hle hcase

theorem uiord_floor (evs : List OutEvent) :
    ∀ m e k t, UIOrd m e evs → .uiText k t ∈ evs → m ≤ k := by
  induction evs with
  | nil => intro m e k t _ hmem; cases hmem
  | cons ev rest ih =>
    intro m e k t hord hmem
    cases ev with
    | uiText k0 t0 =>
      obtain ⟨hmk, hrest⟩ := hord
      rcases List.mem_cons.mp hmem with heq | hmem2
      · cases heq; exact hmk
      · exact Nat.le_trans hmk (ih k0 true k t hrest hmem2)
    | dataUI s =>
      simp only [UIOrd] at hord
      rcases List.mem_cons.mp hmem with heq | hmem2
      · cases heq
      · exact Nat.le_trans (bumpFloor_ge m e) (ih _ false k t hord hmem2)
    | passthrough p =>
      simp only [UIOrd] at hord
      rcases List.mem_cons.mp hmem with heq | hmem2
      · cases heq
      · exact ih _ _ k t hord hmem2

theorem uiord_after (l1 : List OutEvent) :
    ∀ l2 m e s k2 t2, UIOrd m e (l1 ++ .dataUI s :: l2) →
      .uiText k2 t2 ∈ l2 → (e = true → m < k2) ∧ m ≤ k2 := by
  induction l1 with
  | nil =>
    intro l2 m e s k2 t2 hord hmem
    simp only [List.nil_append, UIOrd] at hord
    have hfloor := uiord_floor l2 _ false k2 t2 hord hmem
    cases e with
    | false =>
      simp only [bumpFloor] at hfloor
      exact And.intro (by intro hc; cases hc) hfloor
    | true =>
      simp only [bumpFloor] at hfloor
      exact And.intro (fun _ => by omega) (by omega)
  | cons ev l1 ih =>
    intro l2 m e s k2 t2 hord hmem
    cases ev with
    | uiText k0 t0 =>
      obtain ⟨hmk, hrest⟩ := hord
      have h1 := ih l2 k0 true s k2 t2 hrest hmem
      have h2 := h1.1 rfl
      exact And.intro (fun _ => by omega) (by omega)
    | dataUI s0 =>
      simp only [List.cons_append, UIOrd] at hord
      have h1 := (ih l2 _ false s k2 t2 hord hmem).2
      cases e with
      | false =>
        simp only [bumpFloor] at h1
        exact And.intro (by intro hc; cases hc) h1
      | true =>
        simp only [bumpFloor] at h1
        exact And.intro (fun _ => by omega) (by omega)
    | passthrough p =>
      simp only [List.cons_append, UIOrd] at hord
      exact ih l2 _ _ s k2 t2 hord hmem

theorem uiord_extract (l1 : List OutEvent) :
    ∀ l2 m e s k t k2 t2, UIOrd m e (l1 ++ .dataUI s :: l2) →
      .uiText k t ∈ l1 → .uiText k2 t2 ∈ l2 → k < k2 := by
  induction l1 with
  | nil => intro l2 m e s k t k2 t2 _ hmem _; cases hmem
  | cons ev l1 ih =>
    intro l2 m e s k t k2 t2 hord hmem1 hmem2
    cases ev with
    | uiText k0 t0 =>
      obtain ⟨_, hrest⟩ := hord
      rcases List.mem_cons.mp hmem1 with heq | hmem1b
      · cases heq
        exact (uiord_after l1 l2 k true s k2 t2 hrest hmem2).1 rfl
      · exact ih l2 k0 true s k t k2 t2 hrest hmem1b hmem2
    | dataUI s0 =>
      simp only [List.cons_append, UIOrd] at hord
      rcases List.mem_cons.mp hmem1 with heq | hmem1b
      · cases heq
      · exact ih l2 _ false s k t k2 t2 hord hmem1b hmem2
    | passthrough p =>
      simp only [List.cons_append, UIOrd] at hord
      rcases List.mem_cons.mp hmem1 with heq | hmem1b
      · cases heq
      · exact ih l2 _ _ s k t k2 t2 hord hmem1b hmem2

theorem splitSeg_segText (st : TState) : (splitSeg st).segText = [] := by
  unfold splitSeg
  by_cases h : st.segText = [] <;> simp [h]

theorem splitSeg_segIx_bump (st : TState) :
    (splitSeg st).segIx = bumpFloor st.segIx (segOpen st) := by
  unfold splitSeg segOpen
  by_cases h : st.segText = []
  · simp [h, bumpFloor]
  · have he : st.segText.isEmpty = false := by simp [List.isEmpty_iff, h]
    simp [h, he, bumpFloor]

theorem segOpen_splitSeg (st : TState) : segOpen (splitSeg st) = false := by
  simp [segOpen, splitSeg_segText, List.isEmpty_iff]

theorem segOpen_append_ne (st : TState) (t : JStr) (h : t ≠ []) :
    segOpen (appendSeg st t) = true := by
  simp [segOpen, appendSeg, List.isEmpty_iff, h]

theorem uiord_after_split (st : TState) (tail : List OutEvent)
    (h : UIOrd (splitSeg st).segIx (segOpen (splitSeg st)) tail) :
    UIOrd st.segIx (segOpen st) tail := by
  rw [segOpen_splitSeg, splitSeg_segIx_bump] at h
  refine uiord_weaken tail _ false _ (segOpen st) h (bumpFloor_ge _ _) ?_
  intro he
  right
  rw [he] at h ⊢
  simp [bumpFloor]

theorem parseSpecLine_text_content (line c : JStr)
    (hp : parseSpecLine line = some (.text c)) : c = line := by
  unfold parseSpecLine at hp
  by_cases ht : jsTrim line = []
  · simp [ht] at hp
  · rw [if_neg ht] at hp
    cases hj : jsonParse (jsTrim line) with
    | none => rw [hj] at hp; cases hp; rfl
    | some v =>
      rw [hj] at hp
      by_cases hio : isPatchObj v = true
      · simp [hio] at hp
      · simp [hio] at hp
        cases hp
        rfl

theorem processItems_uiord (items : List ParsedLine) :
    ∀ st tail,
      UIOrd (processItems st items).1.segIx (segOpen (processItems st items).1) tail →
      UIOrd st.segIx (segOpen st) ((processItems st items).2 ++ tail) := by
  induction items with
  | nil => intro st tail h; simpa [processItems] using h
  | cons item rest ih =>
    intro st tail h
    cases item with
    | text c =>
      simp only [processItems] at h ⊢
      rw [List.cons_append]
      simp only [UIOrd]
      constructor
      · simp [appendSeg]
      · have hop := segOpen_append_ne st (c ++ ['\n']) (by simp)
        have h2 := ih (appendSeg st (c ++ ['\n'])) tail h
        rw [hop] at h2
        have hix : (appendSeg st (c ++ ['\n'])).segIx = st.segIx := rfl
        rw [hix] at h2
        exact h2
    | patch d =>
      simp only [processItems] at h ⊢
      cases happ : applySpecPatch (splitSeg st).spec d with
      | error e =>
        rw [happ] at h
        dsimp only at h ⊢
        rw [List.nil_append]
        exact uiord_after_split st tail h
      | ok sp =>
        rw [happ] at h
        dsimp only at h ⊢
        rw [List.cons_append]
        simp only [UIOrd]
        rw [← splitSeg_segIx_bump]
        have hop : segOpen { splitSeg st with spec := sp } = false := by
          simp [segOpen, splitSeg_segText, List.isEmpty_iff]
        have hix : ({ splitSeg st with spec := sp } : TState).segIx =
            (splitSeg st).segIx := rfl
        have h2 := ih { splitSeg st with spec := sp } tail h
        rw [hop, hix] at h2
        exact h2

theorem stepChunk_uiord (c : OuterChunk) (st : TState) (tail : List OutEvent)
    (h : UIOrd (stepChunk st c).1.segIx (segOpen (stepChunk st c).1) tail) :
    UIOrd st.segIx (segOpen st) ((stepChunk st c).2 ++ tail) := by
  cases c with
  | textStart id => simpa [stepChunk] using h
  | textDelta id delta =>
    simp only [stepChunk] at h ⊢
    exact processItems_uiord _
      { st with buf := (splitLines (st.buf ++ delta)).2 } tail h
  | textEnd id =>
    simp only [stepChunk] at h ⊢
    by_cases ht : jsTrim st.buf = []
    · rw [if_pos ht] at h ⊢
      simpa using uiord_after_split st tail h
    · rw [if_neg ht] at h ⊢
      cases hp : parseSpecLine st.buf with
      | none =>
        rw [hp] at h
        dsimp only at h ⊢
        rw [List.nil_append]
        have h2 := uiord_after_split { st with buf := [] } tail h
        exact h2
      | some pl =>
        cases pl with
        | patch d =>
          rw [hp] at h
          dsimp only at h ⊢
          cases happ : applySpecPatch (splitSeg { st with buf := [] }).spec d with
          | error e =>
            rw [happ] at h
            dsimp only at h ⊢
            rw [List.nil_append]
            exact uiord_after_split { st with buf := [] } tail h
          | ok sp =>
            rw [happ] at h
            dsimp only at h ⊢
            rw [List.cons_append, List.nil_append]
            simp only [UIOrd]
            have h2 := uiord_after_split
              { splitSeg { st with buf := [] } with spec := sp } tail h
            have hop : segOpen { splitSeg { st with buf := [] } with spec := sp } =
                false := by
              simp [segOpen, splitSeg_segText, List.isEmpty_iff]
            have hix : ({ splitSeg { st with buf := [] } with spec := sp } :
                TState).segIx = (splitSeg { st with buf := [] }).segIx := rfl
            rw [hop, hix] at h2
            rw [splitSeg_segIx_bump] at h2
            exact h2
        | text cc =>
          rw [hp] at h
          dsimp only at h ⊢
          rw [List.cons_append, List.nil_append]
          simp only [UIOrd]
          have hcc : cc = st.buf := parseSpecLine_text_content st.buf cc hp
          have hbufne : st.buf ≠ [] := by
            intro hnil
            exact ht (by simp [hnil, jsTrim])
          have hccne : cc ≠ [] := by rw [hcc]; exact hbufne
          constructor
          · simp [appendSeg]
          · have h2 := uiord_after_split
              (appendSeg { st with buf := [] } cc) tail h
            rw [segOpen_append_ne _ _ hccne] at h2
            have hix : (appendSeg { st with buf := [] } cc).segIx = st.segIx := rfl
            rw [hix] at h2
            exact h2
  | other payload =>
    simp only [stepChunk] at h ⊢
    rw [List.cons_append, List.nil_append]
    simp only [UIOrd]
    exact h

theorem runChunks_uiord (cs : List OuterChunk) :
    ∀ st, UIOrd st.segIx (segOpen st) (runChunks st cs).2 := by
  induction cs with
  | nil => intro st; trivial
  | cons c cs ih =>
    intro st
    simp only [runChunks]
    exact stepChunk_uiord c st (runChunks (stepChunk st c).1 cs).2 (ih _)

/-- C5: a Patch line closes the currently open segment — once a
document-updated event has been emitted after a text-segment event with
index `k`, every later text-segment event carries a strictly larger index,
so no later event for index `k` carries different or extended text; and
the concrete run "Before\n", patch line, "After\n" yields exactly two
segments with final contents `"Before\n"` and `"After\n"`, never merged. -/
theorem C5_patch_closes_segment :
    (∀ cs l1 s l2 k t k2 t2,
      (runTransport cs).2 = l1 ++ .dataUI s :: l2 →
      .uiText k t ∈ l1 → .uiText k2 t2 ∈ l2 → k < k2)
    ∧ (runTransport [.textDelta (s2l "t") (s2l "Before\n"),
        .textDelta (s2l "t")
          (s2l "\x7b\"op\":\"replace\",\"path\":\"/root\",\"value\":\"card1\"\x7d\n"),
        .textDelta (s2l "t") (s2l "After\n"),
        .textEnd (s2l "t")]).2 =
      [.uiText 0 (s2l "Before\n"),
       .dataUI (.obj [(s2l "root", .str (s2l "card1")), (s2l "elements", .obj [])]),
       .uiText 1 (s2l "After\n")] := by
  constructor
  · intro cs l1 s l2 k t k2 t2 hdec hmem1 hmem2
    have hord : UIOrd 0 false (runTransport cs).2 := runChunks_uiord cs initState
    rw [hdec] at hord
    exact uiord_extract l1 l2 0 false s k t k2 t2 hord hmem1 hmem2
  · rfl

/-- Witness for C5: the general boundary property applied to the concrete
Before/patch/After run, giving the strict index increase across the
emitted document update. -/
theorem C5_witness :
    (runTransport [.textDelta (s2l "t") (s2l "Before\n"),
        .textDelta (s2l "t")
          (s2l "\x7b\"op\":\"replace\",\"path\":\"/root\",\"value\":\"card1\"\x7d\n"),
        .textDelta (s2l "t") (s2l "After\n"),
        .textEnd (s2l "t")]).2 =
      [.uiText 0 (s2l "Before\n"),
       .dataUI (.obj [(s2l "root", .str (s2l "card1")), (s2l "elements", .obj [])]),
       .uiText 1 (s2l "After\n")]
    ∧ (0 : Nat) < 1 :=
  ⟨C5_patch_closes_segment.2,
    C5_patch_closes_segment.1
      [.textDelta (s2l "t") (s2l "Before\n"),
       .textDelta (s2l "t")
         (s2l "\x7b\"op\":\"replace\",\"path\":\"/root\",\"value\":\"card1\"\x7d\n"),
       .textDelta (s2l "t") (s2l "After\n"),
       .textEnd (s2l "t")]
      [.uiText 0 (s2l "Before\n")]
      (.obj [(s2l "root", .str (s2l "card1")), (s2l "elements", .obj [])])
      [.uiText 1 (s2l "After\n")]
      0 (s2l "Before\n") 1 (s2l "After\n")
      (by rfl) (by simp) (by simp)⟩

theorem denseinv_push_nontext (ix : Nat) (txt : JStr) (evs : List OutEvent)
    (ev : OutEvent) (hne : ∀ k t, ev ≠ .uiText k t) (h : DenseInv ix txt evs) :
    DenseInv ix txt (evs ++ [ev]) := by
  obtain ⟨h1, h2, h3⟩ := h
  refine ⟨?_, ?_, ?_⟩
  · intro k hk
    obtain ⟨t, ht⟩ := h1 k hk
    exact ⟨t, List.mem_append_left _ ht⟩
  · intro hne2
    obtain ⟨t, ht⟩ := h2 hne2
    exact ⟨t, List.mem_append_left _ ht⟩
  · intro k t hmem
    rcases List.mem_append.mp hmem with hm | hm
    · exact h3 k t hm
    · rcases List.mem_singleton.mp hm with heq
      exact absurd heq.symm (hne k t)

theorem splitSeg_of_closed (st : TState) (h : st.segText = []) : splitSeg st = st := by
  unfold splitSeg
  simp [h]

theorem denseinv_split (st : TState) (evs : List OutEvent)
    (h : DenseInv st.segIx st.segText evs) :
    DenseInv (splitSeg st).segIx (splitSeg st).segText evs := by
  by_cases hst : st.segText = []
  · rw [splitSeg_of_closed st hst]
    exact h
  · obtain ⟨h1, h2, h3⟩ := h
    have hix : (splitSeg st).segIx = st.segIx + 1 := by
      unfold splitSeg
      simp [hst]
    rw [hix, splitSeg_segText]
    refine ⟨?_, ?_, ?_⟩
    · intro k hk
      by_cases hke : k = st.segIx
      · subst hke; exact h2 hst
      · exact h1 k (by omega)
    · intro hc; exact absurd rfl hc
    · intro k t hmem
      rcases h3 k t hmem with hlt | ⟨heq, _⟩
      · exact Or.inl (by omega)
      · exact Or.inl (by omega)

theorem denseinv_emit (st : TState) (evs : List OutEvent) (t2 : JStr)
    (ht2 : t2 ≠ []) (h : DenseInv st.segIx st.segText evs) :
    DenseInv (appendSeg st t2).segIx (appendSeg st t2).segText
      (evs ++ [.uiText st.segIx (st.segText ++ t2)]) := by
  obtain ⟨h1, h2, h3⟩ := h
  have hix : (appendSeg st t2).segIx = st.segIx := rfl
  have htx : (appendSeg st t2).segText = st.segText ++ t2 := rfl
  rw [hix, htx]
  refine ⟨?_, ?_, ?_⟩
  · intro k hk
    obtain ⟨t, ht⟩ := h1 k hk
    exact ⟨t, List.mem_append_left _ ht⟩
  · intro _
    exact ⟨st.segText ++ t2, List.mem_append_right _ (by simp)⟩
  · intro k t hmem
    rcases List.mem_append.mp hmem with hm | hm
    · rcases h3 k t hm with hlt | ⟨heq, _⟩
      · exact Or.inl hlt
      · exact Or.inr ⟨heq, by simp [ht2]⟩
    · have heq := List.mem_singleton.mp hm
      cases heq
      exact Or.inr ⟨rfl, by simp [ht2]⟩

theorem processItems_dense (items : List ParsedLine) :
    ∀ st evs0, DenseInv st.segIx st.segText evs0 →
      DenseInv (processItems st items).1.segIx (processItems st items).1.segText
        (evs0 ++ (processItems st items).2) := by
  induction items with
  | nil => intro st evs0 h; simpa [processItems] using h
  | cons item rest ih =>
    intro st evs0 h
    cases item with
    | text c =>
      simp only [processItems]
      have h1 := denseinv_emit st evs0 (c ++ ['\n']) (by simp) h
      have h2 := ih (appendSeg st (c ++ ['\n']))
        (evs0 ++ [.uiText st.segIx (st.segText ++ (c ++ ['\n']))]) h1
      have hassoc :
          (evs0 ++ [.uiText st.segIx (st.segText ++ (c ++ ['\n']))]) ++
            (processItems (appendSeg st (c ++ ['\n'])) rest).2 =
          evs0 ++ (.uiText st.segIx (st.segText ++ (c ++ ['\n'])) ::
            (processItems (appendSeg st (c ++ ['\n'])) rest).2) := by
        simp
      rw [hassoc] at h2
      exact h2
    | patch d =>
      simp only [processItems]
      have h1 := denseinv_split st evs0 h
      cases happ : applySpecPatch (splitSeg st).spec d with
      | error e =>
        dsimp only
        simpa using h1
      | ok sp =>
        dsimp only
        have h2 := denseinv_push_nontext _ _ evs0 (.dataUI sp) (by intro k t hc; cases hc) h1
        have h3 := ih { splitSeg st with spec := sp } (evs0 ++ [.dataUI sp]) h2
        have hassoc :
            (evs0 ++ [OutEvent.dataUI sp]) ++
              (processItems { splitSeg st with spec := sp } rest).2 =
            evs0 ++ (OutEvent.dataUI sp ::
              (processItems { splitSeg st with spec := sp } rest).2) := by
          simp
        rw [hassoc] at h3
        exact h3

theorem stepChunk_dense (c : OuterChunk) (st : TState) (evs0 : List OutEvent)
    (h : DenseInv st.segIx st.segText evs0) :
    DenseInv (stepChunk st c).1.segIx (stepChunk st c).1.segText
      (evs0 ++ (stepChunk st c).2) := by
  cases c with
  | textStart id => simpa [stepChunk] using h
  | textDelta id delta =>
    simp only [stepChunk]
    exact processItems_dense _ { st with buf := (splitLines (st.buf ++ delta)).2 } evs0 h
  | textEnd id =>
    simp only [stepChunk]
    by_cases ht : jsTrim st.buf = []
    · rw [if_pos ht]
      simpa using denseinv_split st evs0 h
    · rw [if_neg ht]
      cases hp : parseSpecLine st.buf with
      | none =>
        dsimp only
        simpa using denseinv_split { st with buf := [] } evs0 h
      | some pl =>
        cases pl with
        | patch d =>
          dsimp only
          have h1 := denseinv_split { st with buf := [] } evs0 h
          cases happ : applySpecPatch (splitSeg { st with buf := [] }).spec d with
          | error e =>
            dsimp only
            simpa using h1
          | ok sp =>
            dsimp only
            have h2 := denseinv_push_nontext _ _ evs0 (.dataUI sp)
              (by intro k t hc; cases hc) h1
            exact denseinv_split { splitSeg { st with buf := [] } with spec := sp }
              (evs0 ++ [.dataUI sp]) h2
        | text cc =>
          dsimp only
          have hcc : cc = st.buf := parseSpecLine_text_content st.buf cc hp
          have hbufne : st.buf ≠ [] := by
            intro hnil
            exact ht (by simp [hnil, jsTrim])
          have hccne : cc ≠ [] := by rw [hcc]; exact hbufne
          have h1 := denseinv_emit { st with buf := [] } evs0 cc hccne h
          exact denseinv_split (appendSeg { st with buf := [] } cc)
            (evs0 ++ [.uiText st.segIx (st.segText ++ cc)]) h1
  | other payload =>
    simp only [stepChunk]
    exact denseinv_push_nontext _ _ evs0 (.passthrough payload)
      (by intro k t hc; cases hc) h

theorem runChunks_dense (cs : List OuterChunk) :
    ∀ st evs0, DenseInv st.segIx st.segText evs0 →
      DenseInv (runChunks st cs).1.segIx (runChunks st cs).1.segText
        (evs0 ++ (runChunks st cs).2) := by
  induction cs with
  | nil => intro st evs0 h; simpa [runChunks] using h
  | cons c cs ih =>
    intro st evs0 h
    simp only [runChunks]
    have h1 := stepChunk_dense c st evs0 h
    have h2 := ih (stepChunk st c).1 (evs0 ++ (stepChunk st c).2) h1
    rw [List.append_assoc] at h2
    exact h2

/-- C10: over any whole run, the set of segment indices carried by emitted
text-segment events is downward closed (hence the dense consecutive set
0, 1, ..., m with no gaps): whenever some index `k` was emitted, every
index `j ≤ k` was also emitted — consecutive patch lines with no
intervening text never consume or skip an index. -/
theorem C10_dense_segment_indices (cs : List OuterChunk) (k : Nat) (t : JStr)
    (j : Nat) (hmem : OutEvent.uiText k t ∈ (runTransport cs).2) (hj : j ≤ k) :
    ∃ t2, OutEvent.uiText j t2 ∈ (runTransport cs).2 := by
  have hbase : DenseInv initState.segIx initState.segText [] := by
    refine ⟨?_, ?_, ?_⟩
    · intro k2 hk2
      simp [initState] at hk2
    · intro hc; exact absurd rfl hc
    · intro k2 t2 hm; cases hm
  have hD := runChunks_dense cs initState [] hbase
  rw [List.nil_append] at hD
  obtain ⟨h1, _, h3⟩ := hD
  by_cases hjk : j = k
  · exact ⟨t, hjk ▸ hmem⟩
  · have hjlt : j < k := by omega
    rcases h3 k t hmem with hlt | ⟨heq, _⟩
    · exact h1 j (by omega)
    · exact h1 j (by omega)

/-- Witness for C10: in the Before/patch/After run the event with index 1
forces index 0 to have been emitted as well. -/
theorem C10_witness :
    ∃ t2, OutEvent.uiText 0 t2 ∈
      (runTransport [.textDelta (s2l "t") (s2l "Before\n"),
        .textDelta (s2l "t")
          (s2l "\x7b\"op\":\"replace\",\"path\":\"/root\",\"value\":\"card1\"\x7d\n"),
        .textDelta (s2l "t") (s2l "After\n"),
        .textEnd (s2l "t")]).2 :=
  C10_dense_segment_indices
    [.textDelta (s2l "t") (s2l "Before\n"),
     .textDelta (s2l "t")
       (s2l "\x7b\"op\":\"replace\",\"path\":\"/root\",\"value\":\"card1\"\x7d\n"),
     .textDelta (s2l "t") (s2l "After\n"),
     .textEnd (s2l "t")]
    1 (s2l "After\n") 0
    (by
      have h : (runTransport [.textDelta (s2l "t") (s2l "Before\n"),
          .textDelta (s2l "t")
            (s2l "\x7b\"op\":\"replace\",\"path\":\"/root\",\"value\":\"card1\"\x7d\n"),
          .textDelta (s2l "t") (s2l "After\n"),
          .textEnd (s2l "t")]).2 =
        [.uiText 0 (s2l "Before\n"),
         .dataUI (.obj [(s2l "root", .str (s2l "card1")),
           (s2l "elements", .obj [])]),
         .uiText 1 (s2l "After\n")] := by rfl
      rw [h]
      simp)
    (by omega)

